import Mathlib

/-!
Verification of the stock-portfolio analysis pipeline (`stock_data.py`).

The pipeline's tables are embedded as lists of rational numbers:
a price or return table is a `List` of rows (one row per date, one entry
per ticker); statistics that pandas applies column-wise are modelled on a
single column `List ℚ`, and a table given to such a function is a list of
its columns.  A possibly-missing cell (pandas `NaN`) is an `Option ℚ` with
`none` playing the role of `NaN`.  Standard deviation needs a square root,
so the few values that involve it live in `ℝ` via `Real.sqrt`; everything
below the square root stays in `ℚ` and is computable.
-/

/-- `Series.mean` / `DataFrame.mean` per column: sum divided by count. -/
def mean (l : List ℚ) : ℚ := l.sum / l.length

/-- Sample variance with one delta degree of freedom, the pandas default
(`ddof=1`): sum of squared deviations from the mean divided by `n - 1`. -/
def sampleVar (l : List ℚ) : ℚ :=
  (l.map (fun x => (x - mean l) ^ 2)).sum / ((l.length : ℚ) - 1)

/-- `Series.std`: square root of the sample variance (`ddof=1`). -/
noncomputable def sampleStd (l : List ℚ) : ℝ :=
  Real.sqrt ((sampleVar l : ℚ) : ℝ)

/-- One cell of `DataFrame.pct_change`: defined only when the previous and
the current cell are both present, and then equal to `cur / prev - 1`. -/
def pctCell (prev cur : Option ℚ) : Option ℚ :=
  match prev, cur with
  | some x, some y => some (y / x - 1)
  | _, _ => none

/-- One row of `DataFrame.pct_change`: the elementwise percent change of a
row against the previous row. -/
def pctChangeRow (prev cur : List (Option ℚ)) : List (Option ℚ) :=
  List.zipWith pctCell prev cur

/-- `DataFrame.pct_change()` on a table of rows: the first row becomes all
missing, and row `t` (for `t ≥ 1`) is the percent change of row `t`
against row `t - 1`. -/
def pct_change : List (List (Option ℚ)) → List (List (Option ℚ))
  | [] => []
  | r :: rs => r.map (fun _ => none) :: List.zipWith pctChangeRow (r :: rs) rs

/-- `DataFrame.dropna()`: keep exactly the rows in which every cell is
present. -/
def dropna (rows : List (List (Option ℚ))) : List (List (Option ℚ)) :=
  rows.filter (fun row => row.all Option.isSome)

/-- `calculate_daily_returns` (stock_data.py line 19):
`price_data.pct_change().dropna()`. -/
def calculate_daily_returns (price_data : List (List (Option ℚ))) :
    List (List (Option ℚ)) :=
  dropna (pct_change price_data)

/-- A fully-present price table viewed as a table with optional cells. -/
def toOpt (rows : List (List ℚ)) : List (List (Option ℚ)) :=
  rows.map (fun r => r.map some)

lemma pctChangeRow_map_some (a b : List ℚ) :
    pctChangeRow (a.map some) (b.map some) =
      List.zipWith (fun x y => some (y / x - 1)) a b := by
  simp [pctChangeRow, pctCell]

lemma all_isSome_zipWith_some (a b : List ℚ) :
    (List.zipWith (fun x y => some (y / x - 1)) a b).all Option.isSome = true := by
  induction a generalizing b with
  | nil => simp
  | cons x xs ih =>
    cases b with
    | nil => simp
    | cons y ys => simpa using ih ys

lemma toOpt_getElem (rows : List (List ℚ)) (i : ℕ) (h : i < (toOpt rows).length)
    (h2 : i < rows.length) : (toOpt rows)[i] = rows[i].map some := by
  simp [toOpt]

lemma mem_zipWith_pctChangeRow_all_isSome (prices ps : List (List ℚ)) (row : List (Option ℚ))
    (hmem : row ∈ List.zipWith pctChangeRow (toOpt prices) (toOpt ps)) :
    row.all Option.isSome = true := by
  rcases List.mem_iff_getElem.mp hmem with ⟨i, hi, hrow⟩
  have hi1 : i < (toOpt prices).length := by
    simp [List.length_zipWith] at hi
    exact hi.1
  have hi2 : i < (toOpt ps).length := by
    simp [List.length_zipWith] at hi
    exact hi.2
  have hi1q : i < prices.length := by simpa [toOpt] using hi1
  have hi2q : i < ps.length := by simpa [toOpt] using hi2
  rw [List.getElem_zipWith] at hrow
  rw [toOpt_getElem prices i hi1 hi1q, toOpt_getElem ps i hi2 hi2q,
    pctChangeRow_map_some] at hrow
  rw [← hrow]
  exact all_isSome_zipWith_some _ _

lemma calculate_daily_returns_toOpt_cons (p : List ℚ) (ps : List (List ℚ)) (hp : 0 < p.length) :
    calculate_daily_returns (toOpt (p :: ps)) =
      List.zipWith pctChangeRow (toOpt (p :: ps)) (toOpt ps) := by
  obtain ⟨a, as, rfl⟩ : ∃ a as, p = a :: as := by
    cases p with
    | nil => simp at hp
    | cons a as => exact ⟨a, as, rfl⟩
  have htop : toOpt ((a :: as) :: ps) = (a :: as).map some :: toOpt ps := by simp [toOpt]
  have hpc : pct_change (toOpt ((a :: as) :: ps)) =
      ((a :: as).map some).map (fun _ => none) ::
        List.zipWith pctChangeRow (toOpt ((a :: as) :: ps)) (toOpt ps) := by
    rw [htop]; rfl
  have hfirst : (((a :: as).map some).map (fun _ : Option ℚ => (none : Option ℚ))).all
      Option.isSome = false := by
    simp
  unfold calculate_daily_returns
  rw [hpc]
  unfold dropna
  rw [List.filter_cons_of_neg (by simp [hfirst])]
  rw [List.filter_eq_self.mpr]
  intro row hrow
  simpa using mem_zipWith_pctChangeRow_all_isSome ((a :: as) :: ps) ps row hrow

/-- C1: For every fully-present price table with `N` rows (and at least one
ticker column), `calculate_daily_returns` returns exactly `N - 1` rows, and
the entry at row `t`, column `j` equals `p[t+1][j] / p[t][j] - 1`, i.e. the
elementwise row-over-row percent change with the first (undefined) row
dropped. -/
theorem daily_returns_rows_and_values (prices : List (List ℚ)) (n : ℕ)
    (hn : 0 < n) (hw : ∀ r ∈ prices, r.length = n) :
    (calculate_daily_returns (toOpt prices)).length = prices.length - 1 ∧
    ∀ t, t < prices.length - 1 → ∀ j, j < n →
      ((calculate_daily_returns (toOpt prices)).getD t []).getD j none =
        some ((prices.getD (t + 1) []).getD j 0 / (prices.getD t []).getD j 0 - 1) := by
  cases prices with
  | nil =>
    constructor
    · simp [calculate_daily_returns, toOpt, pct_change, dropna]
    · intro t ht
      simp at ht
  | cons p ps =>
    have hp : 0 < p.length := by
      rw [hw p (by simp)]
      exact hn
    rw [calculate_daily_returns_toOpt_cons p ps hp]
    have hZlen : (List.zipWith pctChangeRow (toOpt (p :: ps)) (toOpt ps)).length =
        ps.length := by
      simp [List.length_zipWith, toOpt]
    constructor
    · rw [hZlen]
      simp
    · intro t ht j hj
      have htps : t < ps.length := by
        simpa using ht
      have htcons : t < (p :: ps).length := by
        simp
        omega
      have ht1 : t < (toOpt (p :: ps)).length := by
        simp [toOpt]
        omega
      have ht2 : t < (toOpt ps).length := by
        simpa [toOpt] using htps
      have htZ : t < (List.zipWith pctChangeRow (toOpt (p :: ps)) (toOpt ps)).length := by
        rw [hZlen]; exact htps
      rw [List.getD_eq_getElem _ _ htZ, List.getElem_zipWith,
        toOpt_getElem _ t ht1 htcons, toOpt_getElem _ t ht2 htps, pctChangeRow_map_some]
      have hlen1 : (p :: ps)[t].length = n :=
        hw _ (List.getElem_mem htcons)
      have hlen2 : ps[t].length = n :=
        hw _ (List.mem_cons_of_mem p (List.getElem_mem htps))
      have hjZ : j < (List.zipWith (fun x y => some (y / x - 1))
          (p :: ps)[t] ps[t]).length := by
        rw [List.length_zipWith, hlen1, hlen2]
        simpa using hj
      rw [List.getD_eq_getElem _ _ hjZ, List.getElem_zipWith]
      have hd1 : (p :: ps).getD (t + 1) [] = ps[t] := by
        rw [List.getD_eq_getElem _ _ (by simpa using htps)]
        simp
      have hd2 : (p :: ps).getD t [] = (p :: ps)[t] :=
        List.getD_eq_getElem _ _ htcons
      rw [hd1, hd2,
        List.getD_eq_getElem _ _ (by rw [hlen2]; exact hj),
        List.getD_eq_getElem _ _ (by rw [hlen1]; exact hj)]

theorem daily_returns_rows_and_values_witness :
    (calculate_daily_returns (toOpt [[100], [101], [99]])).length = 2 ∧
    ((calculate_daily_returns (toOpt [[100], [101], [99]])).getD 0 []).getD 0 none =
      some ((101 : ℚ) / 100 - 1) := by
  have h := daily_returns_rows_and_values [[100], [101], [99]] 1 (by decide) (by decide)
  refine ⟨h.1, ?_⟩
  have h2 := h.2 0 (by decide) 0 (by decide)
  simpa using h2

lemma pctCell_none_right (x : Option ℚ) : pctCell x none = none := by
  cases x <;> rfl

lemma mem_dropna_all_isSome (rows : List (List (Option ℚ))) (row : List (Option ℚ))
    (h : row ∈ dropna rows) : ∀ c ∈ row, c.isSome = true := by
  have := (List.mem_filter.mp h).2
  simpa [List.all_eq_true] using this

/-- C10: `calculate_daily_returns` never returns a row containing a missing
value: `dropna` removes every row of the percent-change table holding a
missing value in any column, not only the first row, so a price table of
`N` rows with a missing value in some row `k ≥ 1` yields strictly fewer
than `N - 1` return rows. -/
theorem daily_returns_no_nan_and_drops (prices : List (List (Option ℚ))) (n k j : ℕ)
    (hw : ∀ r ∈ prices, r.length = n) (hk0 : 0 < k) (hkN : k < prices.length)
    (hj : j < n) (hnan : (prices.getD k []).getD j (some 0) = none) :
    (∀ row ∈ calculate_daily_returns prices, ∀ c ∈ row, c.isSome = true) ∧
    (calculate_daily_returns prices).length < prices.length - 1 := by
  constructor
  · intro row hrow
    exact mem_dropna_all_isSome _ row hrow
  · cases prices with
    | nil => simp at hkN
    | cons p ps =>
      obtain ⟨m, rfl⟩ : ∃ m, k = m + 1 := ⟨k - 1, by omega⟩
      have hmps : m < ps.length := by
        simp at hkN
        omega
      have hkcons : m + 1 < (p :: ps).length := hkN
      have hplen : 0 < p.length := by
        rw [hw p (by simp)]
        omega
      obtain ⟨a, as, rfl⟩ : ∃ a as, p = a :: as := by
        cases p with
        | nil => simp at hplen
        | cons a as => exact ⟨a, as, rfl⟩
      have hpc : pct_change ((a :: as) :: ps) =
          ((a :: as).map (fun _ => none)) ::
            List.zipWith pctChangeRow ((a :: as) :: ps) ps := rfl
      have hres : calculate_daily_returns ((a :: as) :: ps) =
          dropna (List.zipWith pctChangeRow ((a :: as) :: ps) ps) := by
        unfold calculate_daily_returns
        rw [hpc]
        unfold dropna
        rw [List.filter_cons_of_neg (by simp)]
      rw [hres]
      have hZlen : (List.zipWith pctChangeRow ((a :: as) :: ps) ps).length = ps.length := by
        simp [List.length_zipWith]
      have hmZ : m < (List.zipWith pctChangeRow ((a :: as) :: ps) ps).length := by
        rw [hZlen]; exact hmps
      have hmcons : m < ((a :: as) :: ps).length := by
        simp
        omega
      -- the row of the percent-change table computed against the missing row
      -- still holds a missing value, hence is dropped as well
      have hbad : ¬(((List.zipWith pctChangeRow ((a :: as) :: ps) ps)[m]).all
          Option.isSome = true) := by
        rw [List.getElem_zipWith]
        have hb : ps[m] = ((a :: as) :: ps).getD (m + 1) [] := by
          rw [List.getD_eq_getElem _ _ hkcons]
          simp
        have hblen : ps[m].length = n :=
          hw _ (List.mem_cons_of_mem _ (List.getElem_mem hmps))
        have halen : ((a :: as) :: ps)[m].length = n :=
          hw _ (List.getElem_mem hmcons)
        have hjb : ps[m].getD j (some 0) = none := by
          rw [hb]; exact hnan
        have hjb2 : j < ps[m].length := by rw [hblen]; exact hj
        rw [List.getD_eq_getElem _ _ hjb2] at hjb
        have hjrow : j < (pctChangeRow ((a :: as) :: ps)[m] ps[m]).length := by
          unfold pctChangeRow
          rw [List.length_zipWith, halen, hblen]
          simpa using hj
        intro hall
        have hmem : (pctChangeRow ((a :: as) :: ps)[m] ps[m])[j] ∈
            pctChangeRow ((a :: as) :: ps)[m] ps[m] := List.getElem_mem hjrow
        have hval : (pctChangeRow ((a :: as) :: ps)[m] ps[m])[j] = none := by
          unfold pctChangeRow
          rw [List.getElem_zipWith, hjb, pctCell_none_right]
        have := List.all_eq_true.mp hall _ hmem
        rw [hval] at this
        simp at this
      have hdrop : (dropna (List.zipWith pctChangeRow ((a :: as) :: ps) ps)).length <
          (List.zipWith pctChangeRow ((a :: as) :: ps) ps).length := by
        unfold dropna
        rw [List.length_filter_lt_length_iff_exists]
        exact ⟨_, List.getElem_mem hmZ, by simpa using hbad⟩
      rw [hZlen] at hdrop
      simpa using hdrop

theorem daily_returns_no_nan_and_drops_witness :
    (∀ row ∈ calculate_daily_returns [[some 100], [none], [some 99]],
      ∀ c ∈ row, c.isSome = true) ∧
    (calculate_daily_returns [[some 100], [none], [some 99]]).length < 2 := by
  have h := daily_returns_no_nan_and_drops [[some 100], [none], [some 99]] 1 1 0
    (by decide) (by decide) (by decide) (by decide) (by decide)
  exact ⟨h.1, by simpa using h.2⟩

/-- Number of columns of a table of rows: `len(daily_returns.columns)`. -/
def ncols (rows : List (List ℚ)) : ℕ := (rows.headD []).length

/-- The weights actually used by `calculate_portfolio_performance`: the
given vector, or the uniform vector `1 / N` per column when `None` is
passed (stock_data.py lines 77-78). -/
def weightsOrDefault (rows : List (List ℚ)) : Option (List ℚ) → List ℚ
  | some w => w
  | none => List.replicate (ncols rows) (1 / (ncols rows : ℚ))

/-- `(daily_returns * weights).sum(axis=1)`: each row is multiplied
elementwise by the weights vector and summed. -/
def portfolio_returns_of (rows : List (List ℚ)) (w : List ℚ) : List ℚ :=
  rows.map (fun r => (List.zipWith (fun x y => x * y) r w).sum)

/-- `Series.cumprod()`: running product. -/
def cumprod : List ℚ → List ℚ
  | [] => []
  | x :: xs => x :: (cumprod xs).map (fun y => x * y)

/-- `DataFrame.cumprod()`: per-column running product, on a table of rows. -/
def cumprodRows : List (List ℚ) → List (List ℚ)
  | [] => []
  | r :: rs => r :: (cumprodRows rs).map (fun s => List.zipWith (fun x y => x * y) r s)

/-- `calculate_portfolio_performance` (stock_data.py lines 76-85): weighted
row sums, then cumulative products of `1 + return` for the portfolio and
for each ticker column. -/
def calculate_portfolio_performance (rows : List (List ℚ)) (weights : Option (List ℚ)) :
    List ℚ × List ℚ × List (List ℚ) :=
  (portfolio_returns_of rows (weightsOrDefault rows weights),
   cumprod ((portfolio_returns_of rows (weightsOrDefault rows weights)).map (fun x => 1 + x)),
   cumprodRows (rows.map (fun r => r.map (fun x => 1 + x))))

lemma zipWith_mul_sum_eq (a b : List ℚ) (m : ℕ) (ha : a.length = m) (hb : b.length = m) :
    (List.zipWith (fun x y => x * y) a b).sum =
      ∑ i ∈ Finset.range m, a.getD i 0 * b.getD i 0 := by
  induction a generalizing b m with
  | nil =>
    cases b with
    | nil => simp [← ha]
    | cons y ys => rw [← ha] at hb; simp at hb
  | cons x xs ih =>
    cases b with
    | nil => rw [← hb] at ha; simp at ha
    | cons y ys =>
      obtain ⟨m0, rfl⟩ : ∃ m0, m = m0 + 1 := ⟨xs.length, by simpa using ha.symm⟩
      rw [Finset.sum_range_succ']
      simp only [List.getD_cons_succ, List.getD_cons_zero]
      rw [List.zipWith_cons_cons, List.sum_cons,
        ih ys m0 (by simpa using ha) (by simpa using hb)]
      ring

lemma getD_replicate_of_lt (c : ℚ) (n j : ℕ) (h : j < n) :
    (List.replicate n c).getD j 0 = c := by
  rw [List.getD_eq_getElem _ _ (by simpa using h)]
  simp

lemma portfolio_returns_of_getD (rows : List (List ℚ)) (v : List ℚ) (t : ℕ)
    (ht : t < rows.length) :
    (portfolio_returns_of rows v).getD t 0 =
      (List.zipWith (fun x y => x * y) (rows.getD t []) v).sum := by
  unfold portfolio_returns_of
  rw [List.getD_eq_getElem _ _ (by simpa using ht), List.getElem_map,
    List.getD_eq_getElem _ _ ht]

/-- C2: Each entry of the portfolio return series is the weighted sum of
the per-ticker returns of that date; when no weights are passed, the
uniform weight `1 / N` per ticker is used. -/
theorem portfolio_weighted_sum_and_default (rows : List (List ℚ)) (n : ℕ) (w : List ℚ)
    (hw : ∀ r ∈ rows, r.length = n) (hwl : w.length = n) :
    (∀ t, t < rows.length →
      (calculate_portfolio_performance rows (some w)).1.getD t 0 =
        ∑ j ∈ Finset.range n, w.getD j 0 * (rows.getD t []).getD j 0) ∧
    (∀ t, t < rows.length →
      (calculate_portfolio_performance rows none).1.getD t 0 =
        ∑ j ∈ Finset.range n, (1 / (n : ℚ)) * (rows.getD t []).getD j 0) := by
  constructor
  · intro t ht
    have hrow : (rows.getD t []).length = n := by
      rw [List.getD_eq_getElem _ _ ht]
      exact hw _ (List.getElem_mem ht)
    show (portfolio_returns_of rows w).getD t 0 = _
    rw [portfolio_returns_of_getD rows w t ht,
      zipWith_mul_sum_eq _ _ n hrow hwl]
    exact Finset.sum_congr rfl (fun j _ => mul_comm _ _)
  · intro t ht
    cases rows with
    | nil => simp at ht
    | cons r0 rest =>
      have hnc : ncols (r0 :: rest) = n := hw r0 (by simp)
      have hrow : ((r0 :: rest).getD t []).length = n := by
        rw [List.getD_eq_getElem _ _ ht]
        exact hw _ (List.getElem_mem ht)
      show (portfolio_returns_of (r0 :: rest)
        (weightsOrDefault (r0 :: rest) none)).getD t 0 = _
      have hdef : weightsOrDefault (r0 :: rest) none =
          List.replicate n (1 / (n : ℚ)) := by
        unfold weightsOrDefault
        rw [hnc]
      rw [hdef, portfolio_returns_of_getD _ _ t ht,
        zipWith_mul_sum_eq _ _ n hrow (by simp)]
      refine Finset.sum_congr rfl (fun j hj => ?_)
      rw [getD_replicate_of_lt _ _ _ (Finset.mem_range.mp hj), mul_comm]

theorem portfolio_weighted_sum_and_default_witness :
    (calculate_portfolio_performance [[1, 2], [3, 4]] (some [1/4, 3/4])).1.getD 0 0 =
      ∑ j ∈ Finset.range 2,
        ([(1 : ℚ)/4, 3/4].getD j 0 * ([[(1 : ℚ), 2], [3, 4]].getD 0 []).getD j 0) ∧
    (calculate_portfolio_performance [[1, 2], [3, 4]] none).1.getD 1 0 =
      ∑ j ∈ Finset.range 2,
        ((1 / (2 : ℚ)) * ([[(1 : ℚ), 2], [3, 4]].getD 1 []).getD j 0) := by
  have h := portfolio_weighted_sum_and_default [[1, 2], [3, 4]] 2 [1/4, 3/4]
    (by decide) (by decide)
  exact ⟨h.1 0 (by decide), h.2 1 (by decide)⟩

lemma cumprod_length (l : List ℚ) : (cumprod l).length = l.length := by
  induction l with
  | nil => rfl
  | cons x xs ih => simp [cumprod, ih]

lemma cumprod_getD (l : List ℚ) (i : ℕ) (hi : i < l.length) :
    (cumprod l).getD i 0 = ∏ t ∈ Finset.range (i + 1), l.getD t 0 := by
  induction l generalizing i with
  | nil => simp at hi
  | cons x xs ih =>
    cases i with
    | zero => simp [cumprod, Finset.prod_range_one]
    | succ i =>
      have hixs : i < xs.length := by simpa using hi
      have hic : i < (cumprod xs).length := by rw [cumprod_length]; exact hixs
      rw [Finset.prod_range_succ']
      simp only [List.getD_cons_succ, List.getD_cons_zero]
      show ((cumprod xs).map (fun y => x * y)).getD i 0 = _
      rw [List.getD_eq_getElem _ _ (by simpa using hic), List.getElem_map,
        ← List.getD_eq_getElem _ 0 hic, ih i hixs]
      ring

lemma cumprodRows_length (rs : List (List ℚ)) : (cumprodRows rs).length = rs.length := by
  induction rs with
  | nil => rfl
  | cons r rest ih => simp [cumprodRows, ih]

lemma cumprodRows_row_length (rs : List (List ℚ)) (n : ℕ) (hw : ∀ r ∈ rs, r.length = n) :
    ∀ r ∈ cumprodRows rs, r.length = n := by
  induction rs with
  | nil => simp [cumprodRows]
  | cons r rest ih =>
    intro s hs
    rw [show cumprodRows (r :: rest) =
      r :: (cumprodRows rest).map (fun s => List.zipWith (fun x y => x * y) r s) from rfl] at hs
    rcases List.mem_cons.mp hs with h | h
    · rw [h]; exact hw r (by simp)
    · rcases List.mem_map.mp h with ⟨u, hu, rfl⟩
      have hu2 : u.length = n := ih (fun q hq => hw q (by simp [hq])) u hu
      rw [List.length_zipWith, hu2, hw r (by simp)]
      simp

lemma getD_zipWith_mul (a b : List ℚ) (j : ℕ) (hja : j < a.length) (hjb : j < b.length) :
    (List.zipWith (fun x y => x * y) a b).getD j 0 = a.getD j 0 * b.getD j 0 := by
  have hj : j < (List.zipWith (fun x y : ℚ => x * y) a b).length := by
    rw [List.length_zipWith]
    exact lt_min hja hjb
  rw [List.getD_eq_getElem _ _ hj, List.getElem_zipWith,
    List.getD_eq_getElem _ _ hja, List.getD_eq_getElem _ _ hjb]

lemma cumprodRows_getD (rs : List (List ℚ)) (n : ℕ) (hw : ∀ r ∈ rs, r.length = n)
    (i j : ℕ) (hi : i < rs.length) (hj : j < n) :
    ((cumprodRows rs).getD i []).getD j 0 =
      ∏ t ∈ Finset.range (i + 1), (rs.getD t []).getD j 0 := by
  induction rs generalizing i with
  | nil => simp at hi
  | cons r rest ih =>
    cases i with
    | zero => simp [cumprodRows, Finset.prod_range_one]
    | succ i =>
      have hirest : i < rest.length := by simpa using hi
      have hic : i < (cumprodRows rest).length := by rw [cumprodRows_length]; exact hirest
      rw [Finset.prod_range_succ']
      simp only [List.getD_cons_succ, List.getD_cons_zero]
      show (((cumprodRows rest).map
        (fun s => List.zipWith (fun x y => x * y) r s)).getD i []).getD j 0 = _
      rw [List.getD_eq_getElem (l := (cumprodRows rest).map
          (fun s => List.zipWith (fun x y => x * y) r s)) _ (by simpa using hic),
        List.getElem_map]
      have hslen : (cumprodRows rest)[i].length = n :=
        cumprodRows_row_length rest n (fun q hq => hw q (by simp [hq])) _
          (List.getElem_mem hic)
      rw [getD_zipWith_mul r _ j (by rw [hw r (by simp)]; exact hj)
        (by rw [hslen]; exact hj)]
      rw [← List.getD_eq_getElem _ [] hic,
        ih (fun q hq => hw q (by simp [hq])) i hirest]
      ring

lemma one_le_prod_range (f : ℕ → ℚ) (h : ∀ t, 1 ≤ f t) (m : ℕ) :
    1 ≤ ∏ t ∈ Finset.range m, f t := by
  induction m with
  | zero => simp
  | succ m ih =>
    rw [Finset.prod_range_succ]
    calc (1 : ℚ) = 1 * 1 := by ring
    _ ≤ (∏ t ∈ Finset.range m, f t) * f m :=
        mul_le_mul ih (h m) (by norm_num) (le_trans (by norm_num) ih)

lemma prod_range_mono_of_one_le (f : ℕ → ℚ) (h : ∀ t, 1 ≤ f t) (i i' : ℕ) (hii : i ≤ i') :
    ∏ t ∈ Finset.range (i + 1), f t ≤ ∏ t ∈ Finset.range (i' + 1), f t := by
  induction i' , hii using Nat.le_induction with
  | base => exact le_refl _
  | succ k hk ih =>
    rw [Finset.prod_range_succ (n := k + 1)]
    exact le_trans ih (le_mul_of_one_le_right
      (le_trans (by norm_num) (one_le_prod_range f h (k + 1))) (h (k + 1)))

lemma getD_map_one_add (l : List ℚ) (t : ℕ) (ht : t < l.length) :
    (l.map (fun x => 1 + x)).getD t 0 = 1 + l.getD t 0 := by
  rw [List.getD_eq_getElem _ _ (by simpa using ht), List.getElem_map,
    List.getD_eq_getElem _ _ ht]

/-- C3: Both cumulative series returned by `calculate_portfolio_performance`
hold at index `i` the product of `1 + return` over all indices up to `i`
(so the value before the first observation is effectively `1`), and each
cumulative series is monotone non-decreasing when the returns it compounds
are all non-negative. -/
theorem cumulative_series_props (rows : List (List ℚ)) (n : ℕ) (wopt : Option (List ℚ))
    (hw : ∀ r ∈ rows, r.length = n) :
    (∀ i, i < rows.length →
      (calculate_portfolio_performance rows wopt).2.1.getD i 0 =
        ∏ t ∈ Finset.range (i + 1),
          (1 + (calculate_portfolio_performance rows wopt).1.getD t 0)) ∧
    (∀ i, i < rows.length → ∀ j, j < n →
      ((calculate_portfolio_performance rows wopt).2.2.getD i []).getD j 0 =
        ∏ t ∈ Finset.range (i + 1), (1 + (rows.getD t []).getD j 0)) ∧
    ((∀ x ∈ (calculate_portfolio_performance rows wopt).1, 0 ≤ x) →
      ∀ i i', i ≤ i' → i' < rows.length →
        (calculate_portfolio_performance rows wopt).2.1.getD i 0 ≤
          (calculate_portfolio_performance rows wopt).2.1.getD i' 0) ∧
    ((∀ r ∈ rows, ∀ x ∈ r, 0 ≤ x) →
      ∀ i i' j, i ≤ i' → i' < rows.length → j < n →
        ((calculate_portfolio_performance rows wopt).2.2.getD i []).getD j 0 ≤
          ((calculate_portfolio_performance rows wopt).2.2.getD i' []).getD j 0) := by
  have hprlen : (calculate_portfolio_performance rows wopt).1.length = rows.length := by
    show (portfolio_returns_of rows (weightsOrDefault rows wopt)).length = rows.length
    simp [portfolio_returns_of]
  have hA1 : ∀ i, i < rows.length →
      (calculate_portfolio_performance rows wopt).2.1.getD i 0 =
        ∏ t ∈ Finset.range (i + 1),
          (1 + (calculate_portfolio_performance rows wopt).1.getD t 0) := by
    intro i hi
    show (cumprod ((calculate_portfolio_performance rows wopt).1.map
      (fun x => 1 + x))).getD i 0 = _
    rw [cumprod_getD _ i (by rw [List.length_map, hprlen]; exact hi)]
    refine Finset.prod_congr rfl (fun t ht => ?_)
    have ht2 : t < (calculate_portfolio_performance rows wopt).1.length := by
      rw [hprlen]
      have := Finset.mem_range.mp ht
      omega
    exact getD_map_one_add _ t ht2
  have hwmap : ∀ r ∈ rows.map (List.map (fun x : ℚ => 1 + x)), r.length = n := by
    intro r hr
    rcases List.mem_map.mp hr with ⟨u, hu, rfl⟩
    rw [List.length_map]
    exact hw u hu
  have hB1 : ∀ i, i < rows.length → ∀ j, j < n →
      ((calculate_portfolio_performance rows wopt).2.2.getD i []).getD j 0 =
        ∏ t ∈ Finset.range (i + 1), (1 + (rows.getD t []).getD j 0) := by
    intro i hi j hj
    show ((cumprodRows (rows.map (List.map (fun x => 1 + x)))).getD i []).getD j 0 = _
    rw [cumprodRows_getD _ n hwmap i j (by simpa using hi) hj]
    refine Finset.prod_congr rfl (fun t ht => ?_)
    have ht2 : t < rows.length := by
      have := Finset.mem_range.mp ht
      omega
    have hrt : (rows.map (List.map (fun x : ℚ => 1 + x))).getD t [] =
        (rows.getD t []).map (fun x => 1 + x) := by
      rw [List.getD_eq_getElem _ _ (by simpa using ht2), List.getElem_map,
        List.getD_eq_getElem _ _ ht2]
    rw [hrt]
    exact getD_map_one_add _ j (by rw [List.getD_eq_getElem _ _ ht2,
      hw _ (List.getElem_mem ht2)]; exact hj)
  refine ⟨hA1, hB1, ?_, ?_⟩
  · intro hpos i i' hii hi'
    have hi : i < rows.length := lt_of_le_of_lt hii hi'
    rw [hA1 i hi, hA1 i' hi']
    refine prod_range_mono_of_one_le _ (fun t => ?_) i i' hii
    rcases lt_or_ge t (calculate_portfolio_performance rows wopt).1.length with h | h
    · have hmem : (calculate_portfolio_performance rows wopt).1.getD t 0 ∈
          (calculate_portfolio_performance rows wopt).1 := by
        rw [List.getD_eq_getElem _ _ h]
        exact List.getElem_mem h
      have := hpos _ hmem
      linarith
    · rw [List.getD_eq_default _ _ h]
      norm_num
  · intro hpos i i' j hii hi' hj
    have hi : i < rows.length := lt_of_le_of_lt hii hi'
    rw [hB1 i hi j hj, hB1 i' hi' j hj]
    refine prod_range_mono_of_one_le _ (fun t => ?_) i i' hii
    rcases lt_or_ge t rows.length with h | h
    · have hrlen : (rows.getD t []).length = n := by
        rw [List.getD_eq_getElem _ _ h]
        exact hw _ (List.getElem_mem h)
      have hjr : j < (rows.getD t []).length := by rw [hrlen]; exact hj
      have hmemrow : rows.getD t [] ∈ rows := by
        rw [List.getD_eq_getElem _ _ h]
        exact List.getElem_mem h
      have hmem : (rows.getD t []).getD j 0 ∈ rows.getD t [] := by
        rw [List.getD_eq_getElem _ _ hjr]
        exact List.getElem_mem hjr
      have := hpos _ hmemrow _ hmem
      linarith
    · rw [List.getD_eq_default _ _ h]
      norm_num

theorem cumulative_series_props_witness :
    (calculate_portfolio_performance [[1, 2], [3, 4]] none).2.1.getD 1 0 =
      ∏ t ∈ Finset.range 2,
        (1 + (calculate_portfolio_performance [[1, 2], [3, 4]] none).1.getD t 0) ∧
    ((calculate_portfolio_performance [[1, 2], [3, 4]] none).2.2.getD 1 []).getD 0 0 =
      ∏ t ∈ Finset.range 2, (1 + ([[(1 : ℚ), 2], [3, 4]].getD t []).getD 0 0) ∧
    (calculate_portfolio_performance [[1, 2], [3, 4]] none).2.1.getD 0 0 ≤
      (calculate_portfolio_performance [[1, 2], [3, 4]] none).2.1.getD 1 0 ∧
    ((calculate_portfolio_performance [[1, 2], [3, 4]] none).2.2.getD 0 []).getD 1 0 ≤
      ((calculate_portfolio_performance [[1, 2], [3, 4]] none).2.2.getD 1 []).getD 1 0 := by
  have h := cumulative_series_props [[1, 2], [3, 4]] 2 none (by decide)
  have hpos : ∀ x ∈ (calculate_portfolio_performance [[1, 2], [3, 4]] none).1, 0 ≤ x := by
    intro x hx
    simp [calculate_portfolio_performance, portfolio_returns_of,
      weightsOrDefault, ncols] at hx
    rcases hx with h | h <;> rw [h] <;> norm_num
  exact ⟨h.1 1 (by decide), h.2.1 1 (by decide) 0 (by decide),
    h.2.2.1 hpos 0 1 (by decide) (by decide),
    h.2.2.2 (by decide) 0 1 1 (by decide) (by decide) (by decide)⟩

/-- `calculate_volatility` (stock_data.py lines 22-23):
`daily_returns.rolling(window).std()` on one column.  Entry `i` is defined
once the window is full (`i + 1 ≥ window`) and is then the sample standard
deviation of the `window` observations ending at `i`; earlier entries are
left undefined. -/
noncomputable def calculate_volatility (daily_returns : List ℚ) (window : ℕ) :
    List (Option ℝ) :=
  (List.range daily_returns.length).map (fun i =>
    if window ≤ i + 1 then
      some (sampleStd ((daily_returns.take (i + 1)).drop (i + 1 - window)))
    else none)

lemma take_drop_window (l : List ℚ) (w i : ℕ) (hwi : w ≤ i + 1) (hi : i < l.length) :
    (l.take (i + 1)).drop (i + 1 - w) =
      (List.range w).map (fun t => l.getD (i + 1 - w + t) 0) := by
  apply List.ext_getElem
  · simp only [List.length_drop, List.length_take, List.length_map, List.length_range]
    omega
  · intro t h1 h2
    have htw : t < w := by simpa using h2
    have hb : i + 1 - w + t < l.length := by omega
    rw [List.getElem_drop, List.getElem_take, List.getElem_map, List.getElem_range,
      List.getD_eq_getElem _ _ hb]

/-- C4: The rolling volatility at index `i` with `i ≥ window - 1` equals the
sample standard deviation of the `window` returns at indices
`i - window + 1 .. i`, and every index before the window fills is left
undefined. -/
theorem volatility_rolling_std (xs : List ℚ) (w i : ℕ) (hi : i < xs.length) :
    (w ≤ i + 1 →
      (calculate_volatility xs w).getD i none =
        some (sampleStd ((List.range w).map (fun t => xs.getD (i + 1 - w + t) 0)))) ∧
    (i + 1 < w → (calculate_volatility xs w).getD i none = none) := by
  have hbase : (calculate_volatility xs w).getD i none =
      (if w ≤ i + 1 then
        some (sampleStd ((xs.take (i + 1)).drop (i + 1 - w)))
      else none) := by
    unfold calculate_volatility
    rw [List.getD_eq_getElem _ _ (by simpa using hi), List.getElem_map,
      List.getElem_range]
  constructor
  · intro h
    rw [hbase, if_pos h, take_drop_window xs w i h hi]
  · intro h
    rw [hbase, if_neg (by omega)]

theorem volatility_rolling_std_witness :
    (calculate_volatility [1, 2, 4] 2).getD 1 none =
      some (sampleStd ((List.range 2).map (fun t => [(1 : ℚ), 2, 4].getD (1 + 1 - 2 + t) 0))) ∧
    (calculate_volatility [1, 2, 4] 2).getD 0 none = none := by
  have h1 := volatility_rolling_std [1, 2, 4] 2 1 (by decide)
  have h2 := volatility_rolling_std [1, 2, 4] 2 0 (by decide)
  exact ⟨h1.1 (by decide), h2.2 (by decide)⟩

/-- The default risk-free rate of `calculate_sharpe_ratio`: an annualized
2% divided by 252 trading days (stock_data.py line 101). -/
def riskFreeDefault : ℚ := 0.02 / 252

/-- `calculate_sharpe_ratio` applied to a single column (a Series):
`(returns.mean() - risk_free_rate) / returns.std()`. -/
noncomputable def sharpe_of (col : List ℚ) (rf : ℚ) : ℝ :=
  ((mean col - rf : ℚ) : ℝ) / sampleStd col

/-- `calculate_sharpe_ratio` (stock_data.py lines 101-105) on a table given
as its list of columns: the ratio is computed column by column. -/
noncomputable def calculate_sharpe_ratio (cols : List (List ℚ)) (rf : ℚ) : List ℝ :=
  cols.map (fun c => sharpe_of c rf)

/-- C5: Each entry of `calculate_sharpe_ratio` is
`(mean return - risk-free rate) / standard deviation` of its column, and
the default risk-free rate is `0.02 / 252`. -/
theorem sharpe_ratio_per_column (cols : List (List ℚ)) (i : ℕ) (hi : i < cols.length) :
    (calculate_sharpe_ratio cols riskFreeDefault).getD i 0 =
      ((mean (cols.getD i []) : ℚ) - (0.02 : ℝ) / 252) / sampleStd (cols.getD i []) ∧
    riskFreeDefault = 0.02 / 252 := by
  refine ⟨?_, rfl⟩
  unfold calculate_sharpe_ratio
  rw [List.getD_eq_getElem _ _ (by simpa using hi), List.getElem_map,
    ← List.getD_eq_getElem _ [] hi]
  unfold sharpe_of
  have hcast : ((mean (cols.getD i []) - riskFreeDefault : ℚ) : ℝ) =
      ((mean (cols.getD i []) : ℚ) : ℝ) - (0.02 : ℝ) / 252 := by
    rw [show riskFreeDefault = 1 / 12600 from by norm_num [riskFreeDefault]]
    push_cast
    norm_num
  rw [hcast]

theorem sharpe_ratio_per_column_witness :
    (calculate_sharpe_ratio [[0, 1/8400]] riskFreeDefault).getD 0 0 =
      ((mean ([[(0 : ℚ), 1/8400]].getD 0 []) : ℚ) - (0.02 : ℝ) / 252) /
        sampleStd ([[(0 : ℚ), 1/8400]].getD 0 []) ∧
    riskFreeDefault = 0.02 / 252 :=
  sharpe_ratio_per_column [[0, 1/8400]] 0 (by decide)

lemma mean_replicate (n : ℕ) (a : ℚ) (hn : 0 < n) : mean (List.replicate n a) = a := by
  unfold mean
  rw [List.sum_replicate, List.length_replicate, nsmul_eq_mul]
  have hne : (n : ℚ) ≠ 0 := Nat.cast_ne_zero.mpr (Nat.pos_iff_ne_zero.mp hn)
  field_simp

lemma sampleVar_replicate (n : ℕ) (a : ℚ) (hn : 0 < n) :
    sampleVar (List.replicate n a) = 0 := by
  unfold sampleVar
  rw [mean_replicate n a hn, List.map_replicate]
  simp

/-- C7: On a constant return column the standard deviation is zero, and
`calculate_sharpe_ratio` performs the division anyway: it returns the
unguarded quotient `(mean - risk-free) / 0` instead of raising an error.
(The embedding's total division stands in for the IEEE infinity or NaN the
floating-point program produces.) -/
theorem sharpe_ratio_zero_std_unguarded (n : ℕ) (a rf : ℚ) (hn : 0 < n) :
    sampleStd (List.replicate n a) = 0 ∧
    (calculate_sharpe_ratio [List.replicate n a] rf).getD 0 0 =
      ((mean (List.replicate n a) - rf : ℚ) : ℝ) / 0 := by
  have hv : sampleVar (List.replicate n a) = 0 := sampleVar_replicate n a hn
  have hs : sampleStd (List.replicate n a) = 0 := by
    unfold sampleStd
    rw [hv]
    simp
  refine ⟨hs, ?_⟩
  show sharpe_of (List.replicate n a) rf = _
  unfold sharpe_of
  rw [hs]

theorem sharpe_ratio_zero_std_unguarded_witness :
    sampleStd (List.replicate 3 (1/10 : ℚ)) = 0 ∧
    (calculate_sharpe_ratio [List.replicate 3 (1/10 : ℚ)] riskFreeDefault).getD 0 0 =
      ((mean (List.replicate 3 (1/10 : ℚ)) - riskFreeDefault : ℚ) : ℝ) / 0 :=
  sharpe_ratio_zero_std_unguarded 3 (1/10) riskFreeDefault (by decide)

lemma mean_map_mul (c : ℚ) (l : List ℚ) : mean (l.map (fun x => c * x)) = c * mean l := by
  unfold mean
  rw [List.length_map]
  have hsum : (l.map (fun x => c * x)).sum = c * l.sum := by
    simpa using List.sum_map_mul_left l (fun x => x) c
  rw [hsum, mul_div_assoc]

lemma sampleVar_map_mul (c : ℚ) (l : List ℚ) :
    sampleVar (l.map (fun x => c * x)) = c ^ 2 * sampleVar l := by
  unfold sampleVar
  rw [List.length_map, mean_map_mul, List.map_map]
  have hfun : ((fun x => (x - c * mean l) ^ 2) ∘ (fun x => c * x)) =
      fun x => c ^ 2 * (x - mean l) ^ 2 := by
    funext x
    simp only [Function.comp]
    ring
  rw [hfun]
  have hsum : (l.map (fun x => c ^ 2 * (x - mean l) ^ 2)).sum =
      c ^ 2 * (l.map (fun x => (x - mean l) ^ 2)).sum := by
    simpa using List.sum_map_mul_left l (fun x => (x - mean l) ^ 2) (c ^ 2)
  rw [hsum, mul_div_assoc]

lemma div_pos_iff_of_pos_denom (x s : ℝ) (hs : 0 < s) : 0 < x / s ↔ 0 < x := by
  constructor
  · intro h
    have := mul_pos h hs
    rwa [div_mul_cancel₀ x (ne_of_gt hs)] at this
  · intro h
    exact div_pos h hs

lemma div_neg_iff_of_pos_denom (x s : ℝ) (hs : 0 < s) : x / s < 0 ↔ x < 0 := by
  constructor
  · intro h
    have := mul_neg_of_neg_of_pos h hs
    rwa [div_mul_cancel₀ x (ne_of_gt hs)] at this
  · intro h
    exact div_neg_of_neg_of_pos h hs

/-- C6 fails as stated: scaling all returns by a positive constant can flip
the sign of the ratio, because the risk-free rate is not scaled along.  For
the two-point series `[0, 1/8400]` (mean `1/16800`, below the risk-free
rate `1/12600`) the ratio is negative, while after scaling by `c = 2` the
mean `1/8400` exceeds the risk-free rate and the ratio is positive. -/
theorem sharpe_scaling_sign_counterexample :
    (calculate_sharpe_ratio [[0, 1/8400]] riskFreeDefault).getD 0 0 < 0 ∧
    0 < (calculate_sharpe_ratio [List.map (fun x => 2 * x) [0, 1/8400]]
      riskFreeDefault).getD 0 0 := by
  have hm : mean [0, 1/8400] = 1/16800 := by norm_num [mean]
  have hv : sampleVar [0, 1/8400] = 1/141120000 := by norm_num [sampleVar, mean]
  have hm2 : mean (List.map (fun x => 2 * x) [0, 1/8400]) = 1/8400 := by
    rw [mean_map_mul, hm]
    norm_num
  have hv2 : sampleVar (List.map (fun x => 2 * x) [0, 1/8400]) = 1/35280000 := by
    rw [sampleVar_map_mul, hv]
    norm_num
  have hstd1 : 0 < sampleStd [0, 1/8400] := by
    unfold sampleStd
    rw [hv]
    rw [Real.sqrt_pos]
    rw [show ((1/141120000 : ℚ) : ℝ) = 1/141120000 from by push_cast; norm_num]
    norm_num
  have hstd2 : 0 < sampleStd (List.map (fun x => 2 * x) [0, 1/8400]) := by
    unfold sampleStd
    rw [hv2]
    rw [Real.sqrt_pos]
    rw [show ((1/35280000 : ℚ) : ℝ) = 1/35280000 from by push_cast; norm_num]
    norm_num
  constructor
  · show sharpe_of [0, 1/8400] riskFreeDefault < 0
    unfold sharpe_of
    refine div_neg_of_neg_of_pos ?_ hstd1
    rw [hm, show riskFreeDefault = 1/12600 from by norm_num [riskFreeDefault]]
    rw [show ((1/16800 - 1/12600 : ℚ) : ℝ) = -(1/50400) from by push_cast; norm_num]
    norm_num
  · show 0 < sharpe_of (List.map (fun x => 2 * x) [0, 1/8400]) riskFreeDefault
    unfold sharpe_of
    refine div_pos ?_ hstd2
    rw [hm2, show riskFreeDefault = 1/12600 from by norm_num [riskFreeDefault]]
    rw [show ((1/8400 - 1/12600 : ℚ) : ℝ) = 1/25200 from by push_cast; norm_num]
    norm_num

/-- C6 (amended): For every return series with positive sample variance and
every scale factor `c > 0`, the ratio `calculate_sharpe_ratio` assigns to
the series scaled by `c` is positive exactly when the scaled mean exceeds
the risk-free rate and negative exactly when it is below it: the sign of
the ratio matches the sign of `(mean - risk-free)` of the series it is
applied to.  (The sign is not invariant under scaling, since the risk-free
rate is not scaled; see the counterexample.) -/
theorem sharpe_sign_matches_excess_mean (col : List ℚ) (c : ℚ) (hc : 0 < c)
    (hv : 0 < sampleVar col) :
    (0 < (calculate_sharpe_ratio [col.map (fun x => c * x)] riskFreeDefault).getD 0 0 ↔
      riskFreeDefault < mean (col.map (fun x => c * x))) ∧
    ((calculate_sharpe_ratio [col.map (fun x => c * x)] riskFreeDefault).getD 0 0 < 0 ↔
      mean (col.map (fun x => c * x)) < riskFreeDefault) := by
  have hv2 : 0 < sampleVar (col.map (fun x => c * x)) := by
    rw [sampleVar_map_mul]
    exact mul_pos (pow_pos hc 2) hv
  have hstd : 0 < sampleStd (col.map (fun x => c * x)) := by
    unfold sampleStd
    rw [Real.sqrt_pos]
    exact_mod_cast hv2
  have hshow : (calculate_sharpe_ratio [col.map (fun x => c * x)] riskFreeDefault).getD 0 0 =
      ((mean (col.map (fun x => c * x)) - riskFreeDefault : ℚ) : ℝ) /
        sampleStd (col.map (fun x => c * x)) := rfl
  constructor
  · rw [hshow, div_pos_iff_of_pos_denom _ _ hstd]
    constructor
    · intro h
      have : (0 : ℚ) < mean (col.map (fun x => c * x)) - riskFreeDefault := by
        exact_mod_cast h
      linarith
    · intro h
      have : (0 : ℚ) < mean (col.map (fun x => c * x)) - riskFreeDefault := by linarith
      exact_mod_cast this
  · rw [hshow, div_neg_iff_of_pos_denom _ _ hstd]
    constructor
    · intro h
      have : mean (col.map (fun x => c * x)) - riskFreeDefault < 0 := by
        exact_mod_cast h
      linarith
    · intro h
      have : mean (col.map (fun x => c * x)) - riskFreeDefault < 0 := by linarith
      exact_mod_cast this

theorem sharpe_sign_matches_excess_mean_witness :
    (0 < (calculate_sharpe_ratio [[(0 : ℚ), 1].map (fun x => 2 * x)]
        riskFreeDefault).getD 0 0 ↔
      riskFreeDefault < mean ([(0 : ℚ), 1].map (fun x => 2 * x))) ∧
    ((calculate_sharpe_ratio [[(0 : ℚ), 1].map (fun x => 2 * x)]
        riskFreeDefault).getD 0 0 < 0 ↔
      mean ([(0 : ℚ), 1].map (fun x => 2 * x)) < riskFreeDefault) :=
  sharpe_sign_matches_excess_mean [0, 1] 2 (by norm_num)
    (by norm_num [sampleVar, mean])

/-- Dot product of two columns, the numerator building block of the pandas
covariance/correlation computations. -/
def listDot (a b : List ℚ) : ℚ := (List.zipWith (fun x y => x * y) a b).sum

/-- A column with its mean subtracted from every entry. -/
def centered (l : List ℚ) : List ℚ := l.map (fun x => x - mean l)

/-- Sample covariance (`ddof=1`) of two columns of equal length. -/
def sampleCov (x y : List ℚ) : ℚ :=
  listDot (centered x) (centered y) / ((x.length : ℚ) - 1)

/-- Pearson correlation of two columns, as computed per pair by
`DataFrame.corr()`: covariance divided by the product of the standard
deviations. -/
noncomputable def corr (x y : List ℚ) : ℝ :=
  ((sampleCov x y : ℚ) : ℝ) / (sampleStd x * sampleStd y)

/-- `daily_returns.corr()` (stock_data.py line 63): the ticker-by-ticker
matrix of pairwise Pearson correlations of the return columns. -/
noncomputable def corrMatrix (cols : List (List ℚ)) : List (List ℝ) :=
  cols.map (fun x => cols.map (fun y => corr x y))

lemma centered_length (l : List ℚ) : (centered l).length = l.length :=
  List.length_map l _

lemma listDot_comm (a b : List ℚ) : listDot a b = listDot b a := by
  unfold listDot
  induction a generalizing b with
  | nil => cases b <;> simp
  | cons x xs ih =>
    cases b with
    | nil => simp
    | cons y ys =>
      rw [List.zipWith_cons_cons, List.zipWith_cons_cons, List.sum_cons, List.sum_cons,
        ih ys, mul_comm]

lemma listDot_sq_le (a b : List ℚ) (m : ℕ) (ha : a.length = m) (hb : b.length = m) :
    listDot a b ^ 2 ≤ listDot a a * listDot b b := by
  unfold listDot
  rw [zipWith_mul_sum_eq a b m ha hb, zipWith_mul_sum_eq a a m ha ha,
    zipWith_mul_sum_eq b b m hb hb]
  have hcs := Finset.sum_mul_sq_le_sq_mul_sq (Finset.range m)
    (fun i => a.getD i 0) (fun i => b.getD i 0)
  calc (∑ i ∈ Finset.range m, a.getD i 0 * b.getD i 0) ^ 2
      ≤ (∑ i ∈ Finset.range m, a.getD i 0 ^ 2) * ∑ i ∈ Finset.range m, b.getD i 0 ^ 2 :=
        hcs
    _ = (∑ i ∈ Finset.range m, a.getD i 0 * a.getD i 0) *
          ∑ i ∈ Finset.range m, b.getD i 0 * b.getD i 0 := by
        simp [pow_two]

lemma sampleCov_self (x : List ℚ) : sampleCov x x = sampleVar x := by
  unfold sampleCov sampleVar listDot centered
  rw [List.zipWith_same, List.map_map]
  have hfun : ((fun a => a * a) ∘ (fun y => y - mean x)) =
      fun y : ℚ => (y - mean x) ^ 2 := by
    funext y
    simp only [Function.comp]
    ring
  rw [hfun]

lemma sampleVar_pos_of_nonconst (x : List ℚ) (N : ℕ) (hN : 2 ≤ N) (hx : x.length = N)
    (hnc : ∃ u ∈ x, ∃ v ∈ x, u ≠ v) : 0 < sampleVar x := by
  rcases hnc with ⟨u, hu, v, hv, huv⟩
  have hwit : ∃ w ∈ x, w ≠ mean x := by
    by_cases hum : u = mean x
    · exact ⟨v, hv, fun hvm => huv (hum.trans hvm.symm)⟩
    · exact ⟨u, hu, hum⟩
  rcases hwit with ⟨w, hwx, hwm⟩
  unfold sampleVar
  apply div_pos
  · have hterm : (w - mean x) ^ 2 ∈ x.map (fun t => (t - mean x) ^ 2) :=
      List.mem_map_of_mem _ hwx
    have hpos : 0 < (w - mean x) ^ 2 := by
      have hne : w - mean x ≠ 0 := sub_ne_zero.mpr hwm
      exact lt_of_le_of_ne (sq_nonneg _) (Ne.symm (pow_ne_zero 2 hne))
    have hle := List.single_le_sum (l := x.map (fun t => (t - mean x) ^ 2))
      (fun y hy => by
        rcases List.mem_map.mp hy with ⟨q, hq, rfl⟩
        exact sq_nonneg _) _ hterm
    exact lt_of_lt_of_le hpos hle
  · rw [hx]
    have : (2 : ℚ) ≤ (N : ℚ) := by exact_mod_cast hN
    linarith

lemma sampleCov_sq_le (x y : List ℚ) (N : ℕ) (hN : 2 ≤ N) (hx : x.length = N)
    (hy : y.length = N) : sampleCov x y ^ 2 ≤ sampleVar x * sampleVar y := by
  have hvx : sampleVar x = listDot (centered x) (centered x) / ((N : ℚ) - 1) := by
    rw [← sampleCov_self]
    unfold sampleCov
    rw [hx]
  have hvy : sampleVar y = listDot (centered y) (centered y) / ((N : ℚ) - 1) := by
    rw [← sampleCov_self]
    unfold sampleCov
    rw [hy]
  have hd : (0 : ℚ) < ((N : ℚ) - 1) ^ 2 := by
    have : (2 : ℚ) ≤ (N : ℚ) := by exact_mod_cast hN
    nlinarith
  unfold sampleCov
  rw [hx, hvx, hvy, div_pow, div_mul_div_comm, ← pow_two]
  rw [div_le_div_iff_of_pos_right hd]
  exact listDot_sq_le (centered x) (centered y) N
    (by rw [centered_length, hx]) (by rw [centered_length, hy])

lemma sampleStd_pos (x : List ℚ) (hv : 0 < sampleVar x) : 0 < sampleStd x := by
  unfold sampleStd
  rw [Real.sqrt_pos]
  exact_mod_cast hv

lemma corr_self (x : List ℚ) (hv : 0 < sampleVar x) : corr x x = 1 := by
  unfold corr
  rw [sampleCov_self]
  have h1 : sampleStd x * sampleStd x = ((sampleVar x : ℚ) : ℝ) := by
    unfold sampleStd
    exact Real.mul_self_sqrt (by exact_mod_cast hv.le)
  rw [h1]
  exact div_self (by exact_mod_cast hv.ne')

lemma corr_comm (x y : List ℚ) (h : x.length = y.length) : corr x y = corr y x := by
  unfold corr sampleCov
  rw [listDot_comm, h, mul_comm]

lemma abs_corr_le_one (x y : List ℚ) (N : ℕ) (hN : 2 ≤ N) (hx : x.length = N)
    (hy : y.length = N) (hvx : 0 < sampleVar x) (hvy : 0 < sampleVar y) :
    |corr x y| ≤ 1 := by
  have hsx : 0 < sampleStd x := sampleStd_pos x hvx
  have hsy : 0 < sampleStd y := sampleStd_pos y hvy
  have hden : 0 < sampleStd x * sampleStd y := mul_pos hsx hsy
  unfold corr
  rw [abs_div, abs_of_pos hden]
  rw [div_le_one hden]
  have hprod : sampleStd x * sampleStd y =
      Real.sqrt (((sampleVar x * sampleVar y : ℚ) : ℝ)) := by
    unfold sampleStd
    rw [← Real.sqrt_mul (by exact_mod_cast hvx.le)]
    norm_cast
  rw [hprod]
  have habs : |((sampleCov x y : ℚ) : ℝ)| =
      Real.sqrt (((sampleCov x y : ℚ) : ℝ) ^ 2) := (Real.sqrt_sq_eq_abs _).symm
  rw [habs]
  apply Real.sqrt_le_sqrt
  have := sampleCov_sq_le x y N hN hx hy
  exact_mod_cast this

lemma corrMatrix_getD (cols : List (List ℚ)) (i j : ℕ) (hi : i < cols.length)
    (hj : j < cols.length) :
    ((corrMatrix cols).getD i []).getD j 0 = corr (cols.getD i []) (cols.getD j []) := by
  have h1 : (corrMatrix cols).getD i [] =
      List.map (fun y => corr (cols.getD i []) y) cols := by
    unfold corrMatrix
    rw [List.getD_eq_getElem _ _ (by simpa [corrMatrix] using hi), List.getElem_map,
      List.getD_eq_getElem _ _ hi]
  rw [h1, List.getD_eq_getElem _ _ (by simpa using hj), List.getElem_map,
    List.getD_eq_getElem _ _ hj]

/-- C8: For a table of non-constant return columns (at least two rows), the
pairwise Pearson correlation matrix computed in `plot_correlation_heatmap`
is symmetric, carries `1` on the diagonal, and all of its entries lie in
`[-1, 1]`. -/
theorem correlation_matrix_props (cols : List (List ℚ)) (N : ℕ) (hN : 2 ≤ N)
    (hw : ∀ c ∈ cols, c.length = N)
    (hnc : ∀ c ∈ cols, ∃ u ∈ c, ∃ v ∈ c, u ≠ v) :
    (∀ i j, i < cols.length → j < cols.length →
      ((corrMatrix cols).getD i []).getD j 0 =
        ((corrMatrix cols).getD j []).getD i 0) ∧
    (∀ i, i < cols.length → ((corrMatrix cols).getD i []).getD i 0 = 1) ∧
    (∀ i j, i < cols.length → j < cols.length →
      -1 ≤ ((corrMatrix cols).getD i []).getD j 0 ∧
        ((corrMatrix cols).getD i []).getD j 0 ≤ 1) := by
  have hmemD : ∀ i, i < cols.length → cols.getD i [] ∈ cols := by
    intro i hi
    rw [List.getD_eq_getElem _ _ hi]
    exact List.getElem_mem hi
  have hvar : ∀ i, i < cols.length → 0 < sampleVar (cols.getD i []) := by
    intro i hi
    exact sampleVar_pos_of_nonconst _ N hN (hw _ (hmemD i hi)) (hnc _ (hmemD i hi))
  refine ⟨?_, ?_, ?_⟩
  · intro i j hi hj
    rw [corrMatrix_getD cols i j hi hj, corrMatrix_getD cols j i hj hi]
    exact corr_comm _ _ ((hw _ (hmemD i hi)).trans (hw _ (hmemD j hj)).symm)
  · intro i hi
    rw [corrMatrix_getD cols i i hi hi]
    exact corr_self _ (hvar i hi)
  · intro i j hi hj
    rw [corrMatrix_getD cols i j hi hj]
    exact abs_le.mp (abs_corr_le_one _ _ N hN (hw _ (hmemD i hi)) (hw _ (hmemD j hj))
      (hvar i hi) (hvar j hj))

theorem correlation_matrix_props_witness :
    ((corrMatrix [[0, 1], [1, 0]]).getD 0 []).getD 1 0 =
      ((corrMatrix [[0, 1], [1, 0]]).getD 1 []).getD 0 0 ∧
    ((corrMatrix [[0, 1], [1, 0]]).getD 0 []).getD 0 0 = 1 ∧
    (-1 ≤ ((corrMatrix [[0, 1], [1, 0]]).getD 0 []).getD 1 0 ∧
      ((corrMatrix [[0, 1], [1, 0]]).getD 0 []).getD 1 0 ≤ 1) := by
  have h := correlation_matrix_props [[0, 1], [1, 0]] 2 (by norm_num)
    (by intro c hc; simp at hc; rcases hc with h | h <;> simp [h])
    (by
      intro c hc
      simp at hc
      rcases hc with h | h
      · exact ⟨0, by rw [h]; norm_num, 1, by rw [h]; norm_num, by norm_num⟩
      · exact ⟨1, by rw [h]; norm_num, 0, by rw [h]; norm_num, by norm_num⟩)
  exact ⟨h.1 0 1 (by norm_num) (by norm_num), h.2.1 0 (by norm_num),
    h.2.2 0 1 (by norm_num) (by norm_num)⟩

/-- One worksheet of the produced workbook: its name, its columns of
rendered cell strings, and the width assigned to each column. -/
structure SheetData where
  name : String
  cols : List (List String)
  widths : List ℕ

/-- The observable outcome of `export_to_excel`: the ordered sheets, the
date format handed to the writer, and the writer's file mode. -/
structure Workbook where
  sheets : List SheetData
  dateFormat : String
  mode : String

/-- The width `export_to_excel` assigns to a column (stock_data.py lines
148-158): the longest rendered value among the non-empty cells, plus two. -/
def columnWidth (cells : List String) : ℕ :=
  (cells.foldl (fun m s => if s = "" then m else max m s.length) 0) + 2

/-- `export_to_excel` (stock_data.py lines 132-158), modelled as the
workbook it produces: six sheets written in source order, each column
auto-sized by `columnWidth`; the writer is opened with
`date_format="YYYY-MM-DD"` and, since the code passes no `mode`, with the
pandas `ExcelWriter` default mode `"w"`, which overwrites the destination
file unconditionally.  Each table argument is the sheet's grid of rendered
cell strings, column-major. -/
def export_to_excel (daily_returns summary sharpe_ratios portfolio_returns
    cumulative_portfolio cumulative_stocks : List (List String)) : Workbook :=
  ⟨[⟨"Daily Returns", daily_returns, daily_returns.map columnWidth⟩,
    ⟨"Summary Stats", summary, summary.map columnWidth⟩,
    ⟨"Sharpe Ratios", sharpe_ratios, sharpe_ratios.map columnWidth⟩,
    ⟨"Portfolio Returns", portfolio_returns, portfolio_returns.map columnWidth⟩,
    ⟨"Cumulative Portfolio", cumulative_portfolio, cumulative_portfolio.map columnWidth⟩,
    ⟨"Cumulative Stocks", cumulative_stocks, cumulative_stocks.map columnWidth⟩],
   "YYYY-MM-DD", "w"⟩

lemma foldl_width_ge_acc (cells : List String) (acc : ℕ) :
    acc ≤ cells.foldl (fun m s => if s = "" then m else max m s.length) acc := by
  induction cells generalizing acc with
  | nil => exact le_refl _
  | cons c cs ih =>
    refine le_trans ?_ (ih (if c = "" then acc else max acc c.length))
    by_cases hc : c = ""
    · rw [if_pos hc]
    · rw [if_neg hc]
      exact Nat.le_max_left _ _

lemma length_le_foldl_width (cells : List String) (s : String) (acc : ℕ) (hs : s ∈ cells)
    (hne : ¬s = "") :
    s.length ≤ cells.foldl (fun m t => if t = "" then m else max m t.length) acc := by
  induction cells generalizing acc with
  | nil => simp at hs
  | cons c cs ih =>
    rcases List.mem_cons.mp hs with h | h
    · subst h
      show s.length ≤ cs.foldl _ (if s = "" then acc else max acc s.length)
      refine le_trans ?_ (foldl_width_ge_acc cs _)
      rw [if_neg hne]
      exact Nat.le_max_right _ _
    · exact ih _ h

lemma length_le_columnWidth (cells : List String) (s : String) (hs : s ∈ cells) :
    s.length ≤ columnWidth cells := by
  unfold columnWidth
  by_cases hne : s = ""
  · subst hne
    simp
  · exact le_trans (length_le_foldl_width cells s 0 hs hne) (Nat.le_add_right _ 2)

/-- C9: `export_to_excel` writes exactly the six sheets
Daily Returns, Summary Stats, Sharpe Ratios, Portfolio Returns,
Cumulative Portfolio and Cumulative Stocks, in that order, into one
workbook; it formats the date index as `YYYY-MM-DD`, opens the destination
in overwrite mode, and gives every column a width that fits its longest
rendered value (longest non-empty cell plus two). -/
theorem export_to_excel_sheets (a b c d e f : List (List String)) :
    (export_to_excel a b c d e f).sheets.map SheetData.name =
      ["Daily Returns", "Summary Stats", "Sharpe Ratios",
       "Portfolio Returns", "Cumulative Portfolio", "Cumulative Stocks"] ∧
    (export_to_excel a b c d e f).sheets.length = 6 ∧
    (export_to_excel a b c d e f).dateFormat = "YYYY-MM-DD" ∧
    (export_to_excel a b c d e f).mode = "w" ∧
    (∀ sh ∈ (export_to_excel a b c d e f).sheets,
      sh.widths = sh.cols.map columnWidth) ∧
    (∀ sh ∈ (export_to_excel a b c d e f).sheets, ∀ col ∈ sh.cols, ∀ s ∈ col,
      s.length ≤ columnWidth col) := by
  refine ⟨rfl, rfl, rfl, rfl, ?_, ?_⟩
  · intro sh hsh
    simp [export_to_excel] at hsh
    rcases hsh with h | h | h | h | h | h <;> rw [h]
  · intro sh hsh col hcol s hs
    exact length_le_columnWidth col s hs

theorem export_to_excel_sheets_witness :
    (export_to_excel [["x"]] [["x"]] [["x"]] [["x"]] [["x"]] [["x"]]).sheets.map
        SheetData.name =
      ["Daily Returns", "Summary Stats", "Sharpe Ratios",
       "Portfolio Returns", "Cumulative Portfolio", "Cumulative Stocks"] ∧
    "x".length ≤ columnWidth ["x"] := by
  have h := export_to_excel_sheets [["x"]] [["x"]] [["x"]] [["x"]] [["x"]] [["x"]]
  refine ⟨h.1, ?_⟩
  exact h.2.2.2.2.2 ⟨"Daily Returns", [["x"]], [["x"]].map columnWidth⟩
    (by simp [export_to_excel]) ["x"] (by simp) "x" (by simp)
